import Mathlib

/-!
Shallow embedding of the Zoom-attendance decision engine implemented in
`netlify/functions/process/logic.py`, together with theorems settling the
specification's claims about it.

Timestamps are modelled as rational numbers measured in minutes; the
source stores `pd.Timestamp` values at second granularity and converts
all durations to minutes via `total_seconds()/60`, so a rational number
of minutes represents every value the code manipulates exactly (the spec
§4.1 explicitly excludes sub-second noise from the model).
-/

/-- Interval `[start, end)` as a pair of rational timestamps in minutes. -/
abbrev Iv : Type := ℚ × ℚ

/-- Order on intervals by start, the sort key used by `_merge_intervals`
(`ints.sort(key=lambda x:x[0])`, a stable sort, which insertion sort is too). -/
def ivLE (a b : Iv) : Prop := a.1 ≤ b.1

instance : DecidableRel ivLE := fun a b => inferInstanceAs (Decidable (a.1 ≤ b.1))

instance : IsTotal Iv ivLE := ⟨fun a b => le_total a.1 b.1⟩

instance : IsTrans Iv ivLE := ⟨fun _ _ _ h h' => le_trans h h'⟩

/-- Strict separation of two intervals: the first ends before the second starts.
Successive intervals of `_merge_intervals`' output satisfy this. -/
def ivDisj (a b : Iv) : Prop := a.2 < b.1

/-- Strict ordering of interval starts. -/
def ivStartLT (a b : Iv) : Prop := a.1 < b.1

instance : IsTrans Iv ivStartLT := ⟨fun _ _ _ h h' => lt_trans h h'⟩

/-- The sweep loop of `_merge_intervals` (logic.py lines 27-33): walk the
start-sorted intervals keeping a current run `cur`; an interval starting at or
before `cur`'s end is coalesced into it (`if s<=cur_e: if e>cur_e: cur_e=e`),
otherwise `cur` is emitted and the run restarts. -/
def sweep (cur : Iv) : List Iv → List Iv
  | [] => [cur]
  | (s, e) :: rest =>
    if s ≤ cur.2 then sweep (cur.1, max cur.2 e) rest
    else cur :: sweep (s, e) rest

/-- `_merge_intervals` (logic.py lines 23-34): drop pairs that are not strictly
increasing (`e>s` filter; `None`/NaN endpoints are modelled as already absent
since an interval only reaches the engine with both endpoints present), sort by
start, and sweep. -/
def mergeIntervals (l : List Iv) : List Iv :=
  match List.insertionSort ivLE (l.filter fun p => decide (p.1 < p.2)) with
  | [] => []
  | x :: xs => sweep x xs

/-- `_minutes` (logic.py lines 36-37): total length of a list of intervals in
minutes. -/
def ivMinutes (l : List Iv) : ℚ := (l.map fun p => p.2 - p.1).sum

/-- `_interval_union_minutes` (logic.py lines 39-40). -/
def intervalUnionMinutes (l : List Iv) : ℚ := ivMinutes (mergeIntervals l)

theorem sweep_spec (rest : List Iv) : ∀ cur : Iv,
    List.Sorted ivLE (cur :: rest) → cur.1 < cur.2 → (∀ p ∈ rest, p.1 < p.2) →
    (∃ d t, sweep cur rest = (cur.1, d) :: t) ∧
      List.Chain' ivDisj (sweep cur rest) ∧
      ∀ p ∈ sweep cur rest, p.1 < p.2 := by
  induction rest with
  | nil =>
    intro cur _ hv _
    refine ⟨⟨cur.2, [], by simp [sweep]⟩, by simp [sweep], ?_⟩
    intro p hp
    simp only [sweep, List.mem_singleton] at hp
    simpa [hp] using hv
  | cons hd tl ih =>
    intro cur hsort hv hrest
    obtain ⟨s, e⟩ := hd
    rw [List.sorted_cons] at hsort
    obtain ⟨hcur_le, hsort'⟩ := hsort
    by_cases hse : s ≤ cur.2
    · have hv' : cur.1 < max cur.2 e := lt_of_lt_of_le hv (le_max_left _ _)
      have hsort'' : List.Sorted ivLE ((cur.1, max cur.2 e) :: tl) := by
        rw [List.sorted_cons]
        refine ⟨fun b hb => ?_, (List.sorted_cons.mp hsort').2⟩
        exact le_trans (hcur_le (s, e) (by simp)) ((List.sorted_cons.mp hsort').1 b hb)
      have hrest' : ∀ p ∈ tl, p.1 < p.2 := fun p hp => hrest p (by simp [hp])
      have h := ih (cur.1, max cur.2 e) hsort'' hv' hrest'
      simpa [sweep, hse] using h
    · push_neg at hse
      have hv_se : s < e := hrest (s, e) (by simp)
      have h := ih (s, e) hsort' hv_se (fun p hp => hrest p (by simp [hp]))
      obtain ⟨⟨d, t, hdt⟩, hchain, hvall⟩ := h
      have hne : ¬ s ≤ cur.2 := not_le.mpr hse
      refine ⟨⟨cur.2, sweep (s, e) tl, by simp [sweep, hne]⟩, ?_, ?_⟩
      · have : List.Chain' ivDisj (cur :: (s, d) :: t) := by
          rw [List.chain'_cons]
          exact ⟨hse, hdt ▸ hchain⟩
        simpa [sweep, hne, hdt] using this
      · intro p hp
        simp only [sweep, hne, if_false, List.mem_cons] at hp
        rcases hp with hp | hp
        · simpa [hp] using hv
        · exact hvall p hp

theorem mergeIntervals_chain (l : List Iv) :
    List.Chain' ivDisj (mergeIntervals l) ∧ ∀ p ∈ mergeIntervals l, p.1 < p.2 := by
  unfold mergeIntervals
  cases h : List.insertionSort ivLE (l.filter fun p => decide (p.1 < p.2)) with
  | nil => simp
  | cons x xs =>
    have hsorted : List.Sorted ivLE (x :: xs) := by
      rw [← h]; exact List.sorted_insertionSort ivLE _
    have hmem : ∀ p ∈ x :: xs, p.1 < p.2 := by
      intro p hp
      have hp' : p ∈ List.insertionSort ivLE (l.filter fun p => decide (p.1 < p.2)) :=
        h ▸ hp
      have hp'' : p ∈ l.filter fun p => decide (p.1 < p.2) :=
        (List.perm_insertionSort ivLE _).subset hp'
      simpa using (List.mem_filter.mp hp'').2
    have hs := sweep_spec xs x hsorted (hmem x (by simp))
      (fun p hp => hmem p (by simp [hp]))
    exact ⟨hs.2.1, hs.2.2⟩

theorem chain_startLT_of_disj : ∀ l : List Iv,
    List.Chain' ivDisj l → (∀ p ∈ l, p.1 < p.2) → List.Chain' ivStartLT l := by
  intro l
  induction l with
  | nil => intro _ _; simp
  | cons x t ih =>
    intro hchain hval
    cases t with
    | nil => simp
    | cons y t' =>
      rw [List.chain'_cons] at hchain ⊢
      refine ⟨lt_trans (hval x (by simp)) hchain.1, ?_⟩
      exact ih hchain.2 fun p hp => hval p (by simp [List.mem_cons] at hp ⊢; tauto)

theorem sweep_eq_self : ∀ (t : List Iv) (x : Iv),
    List.Chain' ivDisj (x :: t) → sweep x t = x :: t := by
  intro t
  induction t with
  | nil => intro x _; simp [sweep]
  | cons hd tl ih =>
    intro x hchain
    obtain ⟨s, e⟩ := hd
    rw [List.chain'_cons] at hchain
    have h1 : ¬ s ≤ x.2 := not_le.mpr hchain.1
    simp only [sweep, h1, if_false]
    rw [ih (s, e) hchain.2]

theorem mergeIntervals_sorted (l : List Iv) :
    List.Sorted ivLE (mergeIntervals l) := by
  have h := mergeIntervals_chain l
  have hlt := chain_startLT_of_disj _ h.1 h.2
  have hpw : (mergeIntervals l).Pairwise ivStartLT := List.chain'_iff_pairwise.mp hlt
  exact hpw.imp fun hab => le_of_lt hab

theorem mergeIntervals_idem (l : List Iv) :
    mergeIntervals (mergeIntervals l) = mergeIntervals l := by
  have h := mergeIntervals_chain l
  have hfilter : (mergeIntervals l).filter (fun p => decide (p.1 < p.2)) =
      mergeIntervals l :=
    List.filter_eq_self.mpr fun p hp => by simpa using h.2 p hp
  have hsorted := mergeIntervals_sorted l
  conv_lhs => rw [mergeIntervals]
  rw [hfilter, List.Sorted.insertionSort_eq hsorted]
  cases hm : mergeIntervals l with
  | nil => rfl
  | cons x xs => exact sweep_eq_self xs x (hm ▸ h.1)

/-- Claim C9: `totalMinutes(merge(X)) == totalMinutes(merge(merge(X)))`, and
`merge(X)` is a disjoint, start-sorted list, for every input `X`. -/
theorem claim_C9_merge_props : ∀ X : List Iv,
    ivMinutes (mergeIntervals (mergeIntervals X)) = ivMinutes (mergeIntervals X) ∧
    List.Chain' ivDisj (mergeIntervals X) ∧
    List.Chain' ivStartLT (mergeIntervals X) := by
  intro X
  have h := mergeIntervals_chain X
  exact ⟨congrArg ivMinutes (mergeIntervals_idem X), h.1,
    chain_startLT_of_disj _ h.1 h.2⟩

/-- Claim C8 counterexample: the inverted pair `(10, 0)` is not swapped at
ingestion into the Interval Engine: `_merge_intervals` discards it (the `e>s`
filter), so it contributes zero minutes rather than its positive duration 10.
(The swap the spec describes exists only in `_prepare_segments_for_reconnect`.) -/
theorem claim_C8_counterexample :
    mergeIntervals [((10 : ℚ), 0)] = [] ∧ intervalUnionMinutes [((10 : ℚ), 0)] ≠ 10 := by
  constructor
  · norm_num [mergeIntervals, List.insertionSort, List.filter]
  · norm_num [intervalUnionMinutes, ivMinutes, mergeIntervals,
      List.insertionSort, List.filter]

/-- Claim C8 amended: pairs with `end ≤ start` (inverted or degenerate) are
discarded, not swapped, when entering the Interval Engine, and contribute no
duration; every interval inside the engine satisfies `end > start`. -/
theorem claim_C8_amended : ∀ X : List Iv,
    mergeIntervals (X.filter fun p => decide (p.1 < p.2)) = mergeIntervals X ∧
    ∀ p ∈ mergeIntervals X, p.1 < p.2 := by
  intro X
  refine ⟨?_, (mergeIntervals_chain X).2⟩
  unfold mergeIntervals
  rw [List.filter_filter]
  simp

/-- Inner `while` loop of `_minutes_A_minus_B` (logic.py lines 77-83) for one
interval `[cur, aE)` of merged `A`, including the trailing
`if cur<a_e: total += a_e-cur` of line 84.  The shared pointer `j` into merged
`B` is modelled by returning the not-yet-consumed suffix of `B`, which the
caller passes on to the next interval of `A`. -/
def subLoop (cur aE : ℚ) : List Iv → ℚ × List Iv
  | [] => (max 0 (aE - cur), [])
  | (bs, be) :: rest =>
    if aE ≤ cur then (0, (bs, be) :: rest)
    else if be ≤ cur then subLoop cur aE rest
    else if aE ≤ bs then (aE - cur, (bs, be) :: rest)
    else
      let add := if cur < bs then bs - cur else 0
      let r := subLoop (max cur be) aE rest
      (add + r.1, r.2)

/-- Outer `for a_s,a_e in A` loop of `_minutes_A_minus_B` (logic.py lines
75-84), threading the shared `B` suffix through the intervals of `A`. -/
def subAll : List Iv → List Iv → ℚ
  | [], _ => 0
  | (aS, aE) :: ra, B =>
    let r := subLoop aS aE B
    r.1 + subAll ra r.2

/-- `_minutes_A_minus_B` (logic.py lines 70-85). -/
def minutesAMinusB (A B : List Iv) : ℚ :=
  let mA := mergeIntervals A
  let mB := mergeIntervals B
  if mA = [] then 0
  else if mB = [] then ivMinutes mA
  else subAll mA mB

/-- Stated meaning of `subtractMinutes(A, B)` from the claim (spec §4.1):
for one interval `[s, e)` and a start-sorted disjoint interval list,
the length of the part of `[s, e)` covered by none of the intervals. -/
def uncovLen (s e : ℚ) : List Iv → ℚ
  | [] => max 0 (e - s)
  | (bs, be) :: rest =>
    if be ≤ s then uncovLen s e rest
    else if e ≤ bs then max 0 (e - s)
    else max 0 (bs - s) + uncovLen (max s be) e rest

/-- Stated meaning of `subtractMinutes(A, B)` from the claim: total minutes
contained in intervals of merged `A` that no interval of merged `B` covers. -/
def subtractMinutesSpec (A B : List Iv) : ℚ :=
  ((mergeIntervals A).map fun p => uncovLen p.1 p.2 (mergeIntervals B)).sum

/-- Claim C3 (code bug): at `A = [(0,10),(20,30)]`, `B = [(5,25)]` the code
returns 15 minutes although the minutes of merged `A` not covered by merged
`B` are 10 (the uncovered part is `[0,5) ∪ [25,30)`): the pointer `j` shared
across `A`'s intervals consumes `(5,25)` while processing `(0,10)` and never
credits it against `(20,30)`, so the covered stretch `[20,25)` is counted as
uncovered. -/
theorem claim_C3_bug_eval :
    minutesAMinusB [((0 : ℚ), 10), (20, 30)] [(5, 25)] = 15 ∧
    subtractMinutesSpec [((0 : ℚ), 10), (20, 30)] [(5, 25)] = 10 := by
  constructor <;>
    norm_num [minutesAMinusB, subtractMinutesSpec, mergeIntervals,
      List.insertionSort, List.orderedInsert, List.filter, sweep, subAll,
      subLoop, uncovLen, ivMinutes, ivLE]
  simp

/-- Tolerance of the reconnect detector: 2 seconds, i.e. `1/30` minute
(`RECONNECT_OVERLAP_TOLERANCE = pd.Timedelta(seconds=2)`, logic.py line 14). -/
def reconnectTol : ℚ := 1 / 30

/-- One reconnect event as recorded by `_compute_reconnect_events`.  The audit
fields (segment raw names, raw join/leave strings) carried by the source do
not influence any computation and are omitted. -/
structure ReconnectEvent where
  index : Nat
  disconnect : ℚ
  reconnect : ℚ
  gap : ℚ
  deriving DecidableEq

/-- Loop of `_compute_reconnect_events` (logic.py lines 144-174) over the
segments after the first.  After `_prepare_segments_for_reconnect` every
segment carries both endpoints, so the `None` branches of lines 145-152 are
unreachable and not modelled.  A segment starting more than the tolerance
before the current coverage end is contained/overlapping: coverage extends,
no event; otherwise an event is emitted with the gap clamped at zero and
coverage resets to the segment. -/
def reconnectGo (covEnd : ℚ) (idx : Nat) : List Iv → List ReconnectEvent
  | [] => []
  | (s, e) :: rest =>
    if s + reconnectTol < covEnd then
      reconnectGo (if covEnd < e then e else covEnd) idx rest
    else
      { index := idx + 1, disconnect := covEnd, reconnect := s,
        gap := max 0 (s - covEnd) } :: reconnectGo e (idx + 1) rest

/-- `_compute_reconnect_events` (logic.py lines 137-175): event list plus its
count. -/
def computeReconnectEvents : List Iv → Nat × List ReconnectEvent
  | [] => (0, [])
  | (_, e) :: rest =>
    let evs := reconnectGo e 0 rest
    (evs.length, evs)

/-- A raw per-row session record handed to the reconnect detector
(audit-only fields omitted). -/
structure SessionRec where
  join : Option ℚ
  leave : Option ℚ

/-- Lexicographic comparison used by the segment sort
(`segments.sort(key=lambda seg: (seg["start"], seg["end"]))`). -/
def segLE (a b : Iv) : Prop := a.1 < b.1 ∨ (a.1 = b.1 ∧ a.2 ≤ b.2)

instance : DecidableRel segLE := fun a b =>
  inferInstanceAs (Decidable (a.1 < b.1 ∨ (a.1 = b.1 ∧ a.2 ≤ b.2)))

/-- `_prepare_segments_for_reconnect` (logic.py lines 118-135): drop records
with no timestamps, repair a missing endpoint by duplicating the other, swap
inverted pairs, and sort by `(start, end)`. -/
def prepareSegments (recs : List SessionRec) : List Iv :=
  let segs := recs.filterMap fun r =>
    match r.join, r.leave with
    | none, none => none
    | some s, none => some (s, s)
    | none, some e => some (e, e)
    | some s, some e => some (if e < s then (e, s) else (s, e))
  List.insertionSort segLE segs

/-- Claim C2 counterexample: two touching sessions `(0,10)` and `(10,20)`
yield one reconnect event, not zero: the contained/overlap test
`start + tolerance < coverage_end` fails at `10 + 1/30 < 10`, so the event
branch runs (with gap clamped to 0). -/
theorem claim_C2_counterexample :
    ¬ (computeReconnectEvents (prepareSegments
        [⟨some 0, some 10⟩, ⟨some 10, some 20⟩])).1 = 0 := by
  norm_num [computeReconnectEvents, prepareSegments, reconnectGo, reconnectTol,
    List.insertionSort, List.orderedInsert, List.filterMap, segLE]

/-- Claim C2 amended: two touching timestamped sessions `(0,10)`, `(10,20)`
yield exactly one reconnect event with disconnect=10, reconnect=10 and gap 0
under the 2-second tolerance (coverage extends without an event only when the
next session starts more than 2 seconds before the current coverage end);
sessions `(0,10)` and `(20,30)` yield exactly one event with disconnect=10,
reconnect=20 and gap=10 minutes. -/
theorem claim_C2_amended :
    computeReconnectEvents (prepareSegments
        [⟨some 0, some 10⟩, ⟨some 10, some 20⟩]) = (1, [⟨1, 10, 10, 0⟩]) ∧
    computeReconnectEvents (prepareSegments
        [⟨some 0, some 10⟩, ⟨some 20, some 30⟩]) = (1, [⟨1, 10, 20, 10⟩]) := by
  constructor <;>
    norm_num [computeReconnectEvents, prepareSegments, reconnectGo,
      reconnectTol, List.insertionSort, List.orderedInsert, List.filterMap,
      segLE, Prod.ext_iff]

/-- Outcome of the output-writing epilogue of one engine run. -/
structure RunOutcome where
  wroteOutput : Bool
  raisedError : Bool
  deriving DecidableEq

/-- The writer epilogue of `process_zoom_attendance` (logic.py lines 732-754):
try the `openpyxl` engine, then `xlsxwriter`; a failed attempt stores the
exception in `last_err` and continues; after the loop the code reads
`if last_err: pass` (under the comment `# If both engines failed, raise`) and
returns the success dictionary unconditionally.  The booleans say whether each
engine's write succeeds; a failed attempt produces no output. -/
def writeOutputs (openpyxlOk xlsxwriterOk : Bool) : RunOutcome :=
  if openpyxlOk then { wroteOutput := true, raisedError := false }
  else if xlsxwriterOk then { wroteOutput := true, raisedError := false }
  else { wroteOutput := false, raisedError := false }

/-- Claim C6 (code bug): when both writer engines fail, the run completes
without raising (`raisedError = false`) although no output was produced
(`wroteOutput = false`) — contradicting the source's own comment
`# If both engines failed, raise` and the claim's atomicity requirement. -/
theorem claim_C6_bug_eval :
    writeOutputs false false = { wroteOutput := false, raisedError := false } := by
  rfl

/-- The three statuses of a verdict. -/
inductive AttendanceStatus
  | present
  | absent
  | needsReview
  deriving DecidableEq

/-- The recognized rounding modes (logic.py lines 320-321 normalize anything
else to `"none"` before this point). -/
inductive RoundingMode
  | none
  | ceilAttendance
  | ceilBoth
  deriving DecidableEq

/-- `adjusted_total_minutes` (logic.py lines 356-357):
`max(total - max(0, break), 1)`. -/
def adjustedTotal (totalClass breakMin : ℚ) : ℚ :=
  max (totalClass - max 0 breakMin) 1

/-- `effective_threshold_minutes` (logic.py lines 358-360):
`max(0, ratio*adjusted - max(0, buffer))`. -/
def effectiveThreshold (ratio adjTotal bufferMin : ℚ) : ℚ :=
  max 0 (ratio * adjTotal - max 0 bufferMin)

/-- The decision pair (attended, threshold) after rounding
(logic.py lines 547-556). -/
def decisionPair (mode : RoundingMode) (attRaw thrRaw : ℚ) : ℚ × ℚ :=
  match mode with
  | .ceilAttendance => (((⌈attRaw⌉ : ℤ) : ℚ), thrRaw)
  | .ceilBoth => (((⌈attRaw⌉ : ℤ) : ℚ), ((⌈thrRaw⌉ : ℤ) : ℚ))
  | .none => (attRaw, thrRaw)

/-- Status assignment (logic.py lines 558-560):
`meets = decision attended >= decision threshold`;
`"Needs Review" if ambiguous else ("Present" if meets else "Absent")`. -/
def statusOf (isAmbiguous : Bool) (attDecision thrDecision : ℚ) : AttendanceStatus :=
  if isAmbiguous then .needsReview
  else if thrDecision ≤ attDecision then .present
  else .absent

/-- Status of one student from the run configuration and raw attended
minutes: threshold pipeline of logic.py lines 356-360 composed with the
decision of lines 547-560. -/
def studentStatus (mode : RoundingMode) (ratio totalClass breakMin bufferMin : ℚ)
    (isAmbiguous : Bool) (attRaw : ℚ) : AttendanceStatus :=
  let thrRaw := effectiveThreshold ratio (adjustedTotal totalClass breakMin) bufferMin
  let p := decisionPair mode attRaw thrRaw
  statusOf isAmbiguous p.1 p.2

/-- Claim C1: an ambiguous key is `Needs Review` regardless of minutes; a
non-ambiguous student is `Present` iff decision attended ≥ decision threshold,
else `Absent`; with `thresholdRatio=0.8`, `adjustedTotal=100` (total 100,
break 0), `bufferMinutes=0` and `roundingMode=none`, 79.99 attended minutes is
`Absent` and 80.00 is `Present`. -/
theorem claim_C1_status :
    (∀ (mode : RoundingMode) (ratio totalClass breakMin bufferMin attRaw : ℚ),
      studentStatus mode ratio totalClass breakMin bufferMin true attRaw =
        AttendanceStatus.needsReview ∧
      studentStatus mode ratio totalClass breakMin bufferMin false attRaw =
        (if (decisionPair mode attRaw (effectiveThreshold ratio
              (adjustedTotal totalClass breakMin) bufferMin)).2 ≤
            (decisionPair mode attRaw (effectiveThreshold ratio
              (adjustedTotal totalClass breakMin) bufferMin)).1
         then AttendanceStatus.present else AttendanceStatus.absent)) ∧
    studentStatus .none 0.8 100 0 0 false 79.99 = .absent ∧
    studentStatus .none 0.8 100 0 0 false 80 = .present := by
  refine ⟨fun mode ratio totalClass breakMin bufferMin attRaw => ⟨rfl, rfl⟩, ?_, ?_⟩ <;>
    norm_num [studentStatus, statusOf, decisionPair, effectiveThreshold,
      adjustedTotal]

/-- ASCII lowercase of one character: models Python's `str.lower()`.
Only the ASCII range can influence a canonical name, since `_canon_name`
strips every character outside `a`-`z` afterwards (spec §4.3). -/
def lowerChar (c : Char) : Char :=
  if 65 ≤ c.toNat ∧ c.toNat ≤ 90 then Char.ofNat (c.toNat + 32) else c

/-- Python's whitespace class `\s` (ASCII part). -/
def isPyWs (c : Char) : Bool :=
  c == ' ' || c == '\t' || c == '\n' || c == '\r' || c == '\x0b' || c == '\x0c'

/-- Python `str.strip()`: drop leading and trailing whitespace. -/
def trimWs (l : List Char) : List Char :=
  ((l.dropWhile isPyWs).reverse.dropWhile isPyWs).reverse

/-- Scanner for the `re.sub` of `\s+` by a single space: the flag remembers
whether the previous character was whitespace, so each maximal whitespace run
emits exactly one space. -/
def collapseWsGo (prevWs : Bool) : List Char → List Char
  | [] => []
  | c :: rest =>
    if isPyWs c then
      if prevWs then collapseWsGo true rest
      else ' ' :: collapseWsGo true rest
    else c :: collapseWsGo false rest

/-- `re.sub` of `\s+` by a single space: each maximal whitespace run becomes
one space. -/
def collapseWs (l : List Char) : List Char := collapseWsGo false l

/-- The suffix after the first closing parenthesis, when one exists. -/
def afterCloseParen : List Char → Option (List Char)
  | [] => none
  | c :: rest => if c = ')' then some rest else afterCloseParen rest

/-- Fuelled scanner for the `re.sub` of a parenthesized group by a space
(the fuel, initially the list length, only bounds the recursion: each step
consumes at least one character). -/
def stripParensGo : Nat → List Char → List Char
  | _, [] => []
  | 0, l => l
  | fuel + 1, c :: rest =>
    if c = '(' then
      match afterCloseParen rest with
      | some suffix => ' ' :: stripParensGo fuel suffix
      | none => c :: rest
    else c :: stripParensGo fuel rest

/-- `re.sub` of a parenthesized group by a space: every opening parenthesis
with a closing one after it is replaced, together with everything up to and
including that first closing parenthesis, by one space; an opening
parenthesis with no closing one after it cannot start a match, and then no
later position can match either, so the remainder is kept unchanged. -/
def stripParens (l : List Char) : List Char := stripParensGo l.length l

/-- ASCII decimal digit (the 5-digit codes of this system are ASCII). -/
def isDigitChar (c : Char) : Bool := '0' ≤ c && c ≤ '9'

/-- `re.sub` of `\d{5}` by a space: each leftmost run of five consecutive
digits becomes one space (non-overlapping; in a longer digit run the scan
resumes after the fifth digit). -/
def strip5Digits : List Char → List Char
  | c1 :: c2 :: c3 :: c4 :: c5 :: rest =>
    if isDigitChar c1 && isDigitChar c2 && isDigitChar c3 && isDigitChar c4 &&
        isDigitChar c5 then
      ' ' :: strip5Digits rest
    else c1 :: strip5Digits (c2 :: c3 :: c4 :: c5 :: rest)
  | l => l

/-- `re.sub` of `[_-]` by a space. -/
def underscoreHyphenToSpace (l : List Char) : List Char :=
  l.map fun c => if c = '_' ∨ c = '-' then ' ' else c

/-- Lowercase ASCII letter. -/
def isLowerAZ (c : Char) : Bool := 'a' ≤ c && c ≤ 'z'

/-- Scanner for the `re.sub` of `[^a-z]+` by a space: the flag remembers
whether the previous character was a non-letter, so each maximal non-letter
run emits exactly one space. -/
def nonLettersGo (prevNon : Bool) : List Char → List Char
  | [] => []
  | c :: rest =>
    if isLowerAZ c then c :: nonLettersGo false rest
    else if prevNon then nonLettersGo true rest
    else ' ' :: nonLettersGo true rest

/-- `re.sub` of `[^a-z]+` by a space: each maximal run outside `a`-`z`
becomes one space. -/
def nonLettersToSpace (l : List Char) : List Char := nonLettersGo false l

/-- `_canon_name` (logic.py lines 179-187): lowercase, drop parenthesized
groups, drop 5-digit runs, underscores/hyphens to spaces, non-letter runs to
spaces, collapse whitespace, trim. -/
def canonName (s : String) : String :=
  String.mk (trimWs (collapseWs (nonLettersToSpace (underscoreHyphenToSpace
    (strip5Digits (stripParens (s.data.map lowerChar)))))))

/-- `_norm_name_spaces_only` (logic.py lines 189-190): strip, lowercase,
collapse whitespace runs to single spaces. -/
def normNameSpacesOnly (s : String) : String :=
  String.mk (collapseWs ((trimWs s.data).map lowerChar))

/-- ASCII lowercase of a whole string. -/
def lowerString (s : String) : String := String.mk (s.data.map lowerChar)

theorem lowerChar_toNat_upper (c : Char) (h : 65 ≤ c.toNat ∧ c.toNat ≤ 90) :
    (lowerChar c).toNat = c.toNat + 32 := by
  unfold lowerChar
  rw [if_pos h]
  have hv : (c.toNat + 32).isValidChar := Or.inl (by omega)
  simp only [Char.ofNat]
  rw [dif_pos hv]
  rfl

theorem lowerChar_idem (c : Char) : lowerChar (lowerChar c) = lowerChar c := by
  by_cases h : 65 ≤ c.toNat ∧ c.toNat ≤ 90
  · have ht := lowerChar_toNat_upper c h
    have hout : ¬ (65 ≤ (lowerChar c).toNat ∧ (lowerChar c).toNat ≤ 90) := by
      omega
    conv_lhs => rw [lowerChar]
    rw [if_neg hout]
  · have hc : lowerChar c = c := by rw [lowerChar, if_neg h]
    rw [hc, hc]

theorem canonName_lower_invariant (s : String) :
    canonName (lowerString s) = canonName s := by
  unfold canonName lowerString
  have hdata : (String.mk (s.data.map lowerChar)).data = s.data.map lowerChar :=
    rfl
  rw [hdata, List.map_map]
  have hmap : s.data.map (lowerChar ∘ lowerChar) = s.data.map lowerChar := by
    apply List.map_congr_left
    intro c _
    exact lowerChar_idem c
  rw [hmap]

/-- Separator class `[\s\-_]` of `_name_to_erp_and_clean`. -/
def isSepChar (c : Char) : Bool := isPyWs c || c == '-' || c == '_'

/-- `_name_to_erp_and_clean` (logic.py lines 310-315): after `str.strip()`,
match the name against "five digits, one or more separators, a remainder";
on success return the 5-digit code, the cleaned remainder and flag 0,
otherwise no code, the stripped name and flag -1.  When everything after the
digits is separators, the regex backtracks: with at least two separator
characters the last one becomes the captured remainder; with exactly one the
match fails. -/
def nameToErpAndClean (name : String) : Option String × String × Int :=
  let t := trimWs name.data
  match t with
  | c1 :: c2 :: c3 :: c4 :: c5 :: rest =>
    if isDigitChar c1 && isDigitChar c2 && isDigitChar c3 && isDigitChar c4 &&
        isDigitChar c5 && !rest.isEmpty && isSepChar (rest.headD ' ') then
      let erp := String.mk [c1, c2, c3, c4, c5]
      let afterSeps := rest.dropWhile isSepChar
      if !afterSeps.isEmpty then (some erp, String.mk afterSeps, 0)
      else if 2 ≤ rest.length then (some erp, String.mk [rest.getLastD ' '], 0)
      else (none, String.mk t, -1)
    else (none, String.mk t, -1)
  | _ => (none, String.mk t, -1)

/-- `key_of` (logic.py lines 369-372): identity key of one row,
`ERP:<code>` when a code was extracted from the raw name, else
`NAME:<space-normalized lowercase clean name>`. -/
def rowKeyOfName (rawName : String) : String :=
  match nameToErpAndClean rawName with
  | (some code, _, _) => "ERP:" ++ code
  | (none, clean, _) => "NAME:" ++ normNameSpacesOnly clean

/-- The four `EXCLUDE_NAME_PATTERNS` regexes (logic.py lines 7-12) compiled
to a character-level test: each pattern is the literal surrounded by optional
whitespace and anchored at both ends, case-insensitive, with an optional
apostrophe in the notetaker literal; `str.contains` with both anchors is a
full match. -/
def isExcludedName (s : String) : Bool :=
  let t := String.mk (trimWs (s.data.map lowerChar))
  t == "meeting analytics from read" || t == "ta" ||
    t == "saboors fathom notetaker" || t == "saboor\x27s fathom notetaker" ||
    t == "hassaan khalid"

/-- One parsed input row as the resolver sees it (timestamped path): raw
display name and parsed join/leave timestamps; audit fields (raw join/leave
text, email, participant id) are omitted. -/
structure Row where
  rawName : String
  join : Option ℚ
  leave : Option ℚ

/-- Association-list lookup, modelling Python dict access by key. -/
def alFind (m : List (String × α)) (k : String) : Option α :=
  (m.find? fun p => p.1 == k).map fun p => p.2

/-- Python `d.get(k, [])` for interval maps. -/
def alGetList (m : List (String × List Iv)) (k : String) : List Iv :=
  (alFind m k).getD []

/-- Python `d.setdefault(k, v)`: register `(k, v)` at the end unless `k` is
present. -/
def alSetdefault (m : List (String × α)) (k : String) (v : α) :
    List (String × α) :=
  if (alFind m k).isSome then m else m ++ [(k, v)]

/-- Python `d.setdefault(k, []).extend(xs)`: extend the list stored at `k` in
place, registering `k` at the end first when absent. -/
def alExtend (m : List (String × List α)) (k : String) (xs : List α) :
    List (String × List α) :=
  if (alFind m k).isSome then
    m.map fun p => if p.1 == k then (p.1, p.2 ++ xs) else p
  else m ++ [(k, xs)]

/-- Python `d.pop(k, None)`. -/
def alErase (m : List (String × α)) (k : String) : List (String × α) :=
  m.filter fun p => !(p.1 == k)

/-- The two-pointer loop of `_intervals_overlap_or_close` (logic.py lines
56-67) over two merged interval lists: overlap or proximity within the gap
returns true; otherwise the list whose current interval ends first
advances. -/
def overlapLoop (gap : ℚ) : List Iv → List Iv → Bool
  | [], _ => false
  | _, [] => false
  | (aS, aE) :: A, (bS, bE) :: B =>
    if bS ≤ aE ∧ aS ≤ bE then true
    else if aE < bS then
      if bS - aE ≤ gap then true else overlapLoop gap A ((bS, bE) :: B)
    else if bE < aS then
      if aS - bE ≤ gap then true else overlapLoop gap ((aS, aE) :: A) B
    else if aE < bE then overlapLoop gap A ((bS, bE) :: B)
    else overlapLoop gap ((aS, aE) :: A) B
termination_by A B => A.length + B.length
decreasing_by
  all_goals simp [List.length_cons]

/-- `_intervals_overlap_or_close` (logic.py lines 52-68); its identity-merge
call site uses a 7-minute tolerance (line 441). -/
def intervalsOverlapOrClose (A B : List Iv) (maxGapMinutes : ℚ) : Bool :=
  let mA := mergeIntervals A
  let mB := mergeIntervals B
  if mA.isEmpty || mB.isEmpty then false
  else overlapLoop maxGapMinutes mA mB

/-- The per-run maps of `process_zoom_attendance` that identity resolution
reads and mutates (logic.py lines 374-384 and 421-456), as insertion-ordered
association lists.  `erp_by_key`, `match_source_by_key`, `raw_names_by_key`
and `session_records_by_key` are popped/merged alongside but influence no
merge decision and are omitted; `canon_by_key` is kept because the
canonical-name groups are built from it. -/
structure ResolveState where
  namesByKey : List (String × String)
  canonByKey : List (String × String)
  ivByKey : List (String × List Iv)
  goodByKey : List (String × List Iv)
  badByKey : List (String × List Iv)
  ambiguousAliases : List String
  aliasMerges : List (String × String)
  deriving DecidableEq

/-- Fresh per-run state (logic.py lines 374-384). -/
def emptyResolveState : ResolveState := ⟨[], [], [], [], [], [], []⟩

/-- Ingestion of one row into the per-key maps (timestamped path, logic.py
lines 387-407): register the key with its first clean name and canonical
name, append the interval when both timestamps parse, and file it under the
good or flagged interval set by the penalty flag. -/
def ingestRow (st : ResolveState) (r : Row) : ResolveState :=
  let parsed := nameToErpAndClean r.rawName
  let k := rowKeyOfName r.rawName
  let iv : List Iv :=
    match r.join, r.leave with
    | some s, some e => [(s, e)]
    | _, _ => []
  let st1 : ResolveState := { st with
    namesByKey := alSetdefault st.namesByKey k parsed.2.1,
    canonByKey := alSetdefault st.canonByKey k (canonName parsed.2.1),
    ivByKey := alExtend st.ivByKey k iv }
  if parsed.2.2 == -1 then
    { st1 with badByKey := alExtend st1.badByKey k iv }
  else
    { st1 with goodByKey := alExtend st1.goodByKey k iv }

/-- Grouping of active keys by canonical name (logic.py lines 423-428):
ERP-keyed and NAME-keyed maps from canonical name to key lists, in insertion
order, skipping empty canonical names. -/
def buildByCanon (canonByKey : List (String × String)) :
    List (String × List String) × List (String × List String) :=
  canonByKey.foldl
    (fun acc p =>
      if p.2 == "" then acc
      else if p.1.startsWith "ERP:" then (alExtend acc.1 p.2 [p.1], acc.2)
      else (acc.1, alExtend acc.2 p.2 [p.1]))
    ([], [])

/-- Choice of the destination ERP key for one NAME key (logic.py lines
435-442): with exactly one ERP key sharing the canonical name it is chosen
unconditionally; with several, the first whose current interval set is
overlap-or-near compatible with the NAME key's (7-minute tolerance) is
chosen; none qualifying yields no choice. -/
def chooseErpKey (st : ResolveState) (erpKeys : List String) (nameK : String) :
    Option String :=
  if erpKeys.length == 1 then erpKeys.head?
  else
    let nameInts := alGetList st.ivByKey nameK
    erpKeys.find? fun ek =>
      intervalsOverlapOrClose nameInts (alGetList st.ivByKey ek) 7

/-- Merge of one NAME key into a chosen ERP key (logic.py lines 446-456):
extend the destination's interval sets with the source's, pop the source
from every map, and record the merge in the audit trail.  (The match-source
update and the raw-name/session transfers are audit bookkeeping on omitted
maps.) -/
def mergeInto (st : ResolveState) (nameK chosen : String) : ResolveState :=
  { namesByKey := alErase st.namesByKey nameK,
    canonByKey := alErase st.canonByKey nameK,
    ivByKey := alErase (alExtend st.ivByKey chosen (alGetList st.ivByKey nameK)) nameK,
    goodByKey := alErase (alExtend st.goodByKey chosen (alGetList st.goodByKey nameK)) nameK,
    badByKey := alErase (alExtend st.badByKey chosen (alGetList st.badByKey nameK)) nameK,
    ambiguousAliases := st.ambiguousAliases,
    aliasMerges := st.aliasMerges ++ [(nameK, chosen)] }

/-- Processing of one NAME key of a canonical-name group (logic.py lines
433-456): skipped when already merged away (`if name_k not in names_by_key`),
otherwise merged into the chosen ERP key, or marked ambiguous when no ERP
key qualifies. -/
def processNameKey (erpKeys : List String) (st : ResolveState) (nameK : String) :
    ResolveState :=
  if (alFind st.namesByKey nameK).isNone then st
  else
    match chooseErpKey st erpKeys nameK with
    | none => { st with ambiguousAliases := st.ambiguousAliases ++ [nameK] }
    | some chosen => mergeInto st nameK chosen

/-- Processing of one canonical-name group: the `for name_k in list(nkeys)`
loop of logic.py line 433. -/
def processGroup (st : ResolveState) (erpKeys : List String)
    (nkeys : List String) : ResolveState :=
  nkeys.foldl (processNameKey erpKeys) st

/-- The timestamped alias-merge phase (logic.py lines 421-456): group the
keys by canonical name once, then process every NAME group that has at least
one ERP key sharing its canonical name. -/
def aliasMergePhase (st : ResolveState) : ResolveState :=
  let byCanon := buildByCanon st.canonByKey
  byCanon.2.foldl
    (fun s p =>
      let erpKeys := (alFind byCanon.1 p.1).getD []
      if erpKeys.isEmpty then s else processGroup s erpKeys p.2)
    st

/-- Identity resolution over the rows (timestamped path): the exclusion
filter of logic.py lines 330-333 followed by grouping (lines 386-407) and
alias merging (lines 421-456). -/
def identityResolve (rows : List Row) : ResolveState :=
  aliasMergePhase
    ((rows.filter fun r => !isExcludedName r.rawName).foldl ingestRow
      emptyResolveState)


theorem alFind_erase_ne (m : List (String × α)) (k k' : String) (h : k ≠ k') :
    alFind (alErase m k') k = alFind m k := by
  unfold alFind alErase
  induction m with
  | nil => rfl
  | cons p rest ih =>
    by_cases hp : p.1 = k'
    · have hk : (p.1 == k) = false := beq_eq_false_iff_ne.mpr fun hc => h (hc.symm.trans hp)
      have hk' : (p.1 == k') = true := beq_iff_eq.mpr hp
      simp only [List.filter_cons, hk', Bool.not_true, if_false, List.find?_cons, hk]
      exact ih
    · have hk' : (p.1 == k') = false := beq_eq_false_iff_ne.mpr hp
      simp only [List.filter_cons, hk', Bool.not_false, if_true, List.find?_cons]
      cases hpk : (p.1 == k) with
      | true => rfl
      | false => exact ih

theorem processNameKey_merges_mono (erpKeys : List String) (st : ResolveState)
    (nk : String) :
    ∃ t, (processNameKey erpKeys st nk).aliasMerges = st.aliasMerges ++ t := by
  unfold processNameKey
  by_cases h : ((alFind st.namesByKey nk).isNone = true)
  · exact ⟨[], by rw [if_pos h]; simp⟩
  · rw [if_neg h]
    cases chooseErpKey st erpKeys nk with
    | none => exact ⟨[], by simp⟩
    | some c => exact ⟨[(nk, c)], rfl⟩

theorem processGroup_merges_mono (erpKeys : List String) :
    ∀ (nkeys : List String) (st : ResolveState),
      ∃ t, (processGroup st erpKeys nkeys).aliasMerges = st.aliasMerges ++ t := by
  intro nkeys
  induction nkeys with
  | nil => exact fun st => ⟨[], by simp [processGroup]⟩
  | cons nk rest ih =>
    intro st
    obtain ⟨t1, h1⟩ := processNameKey_merges_mono erpKeys st nk
    obtain ⟨t2, h2⟩ := ih (processNameKey erpKeys st nk)
    refine ⟨t1 ++ t2, ?_⟩
    have hg : processGroup st erpKeys (nk :: rest) =
        processGroup (processNameKey erpKeys st nk) erpKeys rest := rfl
    rw [hg, h2, h1, List.append_assoc]

theorem processNameKey_preserves_other (erpKeys : List String)
    (st : ResolveState) (nk nameK : String) (hne : nameK ≠ nk)
    (h : (alFind st.namesByKey nameK).isSome) :
    (alFind (processNameKey erpKeys st nk).namesByKey nameK).isSome := by
  unfold processNameKey
  by_cases h0 : ((alFind st.namesByKey nk).isNone = true)
  · rw [if_pos h0]; exact h
  · rw [if_neg h0]
    cases chooseErpKey st erpKeys nk with
    | none => exact h
    | some c =>
      show (alFind (mergeInto st nk c).namesByKey nameK).isSome
      unfold mergeInto
      rw [alFind_erase_ne _ _ _ hne]
      exact h

theorem processNameKey_singleton (st : ResolveState) (ek nameK : String)
    (h : (alFind st.namesByKey nameK).isSome) :
    processNameKey [ek] st nameK = mergeInto st nameK ek := by
  unfold processNameKey
  have h0 : ¬ ((alFind st.namesByKey nameK).isNone = true) := by
    cases ho : alFind st.namesByKey nameK with
    | none => rw [ho] at h; simp at h
    | some v => simp
  rw [if_neg h0]
  simp [chooseErpKey]

theorem processNameKey_merged_compat (st : ResolveState)
    (erpKeys : List String) (nameK ek : String)
    (h : (alFind st.namesByKey nameK).isSome)
    (hlen : 1 < erpKeys.length)
    (hm : (processNameKey erpKeys st nameK).aliasMerges =
      st.aliasMerges ++ [(nameK, ek)]) :
    ek ∈ erpKeys ∧
      intervalsOverlapOrClose (alGetList st.ivByKey nameK)
        (alGetList st.ivByKey ek) 7 = true := by
  have h0 : ¬ ((alFind st.namesByKey nameK).isNone = true) := by
    cases ho : alFind st.namesByKey nameK with
    | none => rw [ho] at h; simp at h
    | some v => simp
  rw [processNameKey, if_neg h0] at hm
  have hne1 : (erpKeys.length == 1) = false :=
    beq_eq_false_iff_ne.mpr (by omega)
  rw [chooseErpKey, hne1] at hm
  simp only [Bool.false_eq_true, if_false] at hm
  cases hf : erpKeys.find? fun e =>
      intervalsOverlapOrClose (alGetList st.ivByKey nameK)
        (alGetList st.ivByKey e) 7 with
  | none =>
    rw [hf] at hm
    simp only at hm
    have := congrArg List.length hm
    simp at this
  | some c =>
    rw [hf] at hm
    simp only [mergeInto] at hm
    have hc : [(nameK, c)] = [(nameK, ek)] := List.append_cancel_left hm
    have hcek : c = ek := by simpa using hc
    subst hcek
    have hp := List.find?_some hf
    simp only at hp
    exact ⟨List.mem_of_find?_eq_some hf, hp⟩

theorem processNameKey_none_compat (st : ResolveState) (erpKeys : List String)
    (nameK : String) (h : (alFind st.namesByKey nameK).isSome)
    (hlen : 1 < erpKeys.length)
    (hall : ∀ ek ∈ erpKeys,
      intervalsOverlapOrClose (alGetList st.ivByKey nameK)
        (alGetList st.ivByKey ek) 7 = false) :
    processNameKey erpKeys st nameK =
      { st with ambiguousAliases := st.ambiguousAliases ++ [nameK] } := by
  have h0 : ¬ ((alFind st.namesByKey nameK).isNone = true) := by
    cases ho : alFind st.namesByKey nameK with
    | none => rw [ho] at h; simp at h
    | some v => simp
  rw [processNameKey, if_neg h0]
  have hne1 : (erpKeys.length == 1) = false :=
    beq_eq_false_iff_ne.mpr (by omega)
  have hf : (erpKeys.find? fun e =>
      intervalsOverlapOrClose (alGetList st.ivByKey nameK)
        (alGetList st.ivByKey e) 7) = none := by
    rw [List.find?_eq_none]
    intro e he
    simp [hall e he]
  rw [chooseErpKey, hne1]
  simp only [Bool.false_eq_true, if_false]
  rw [hf]

theorem processGroup_singleton_merges (ek : String) :
    ∀ (nkeys : List String) (st : ResolveState) (nameK : String),
      nameK ∈ nkeys → (alFind st.namesByKey nameK).isSome →
      (nameK, ek) ∈ (processGroup st [ek] nkeys).aliasMerges := by
  intro nkeys
  induction nkeys with
  | nil => intro st nameK hmem; simp at hmem
  | cons nk rest ih =>
    intro st nameK hmem hact
    have hg : processGroup st [ek] (nk :: rest) =
        processGroup (processNameKey [ek] st nk) [ek] rest := rfl
    by_cases heq : nameK = nk
    · subst heq
      have h1 := processNameKey_singleton st ek nameK hact
      have hmem1 : (nameK, ek) ∈ (processNameKey [ek] st nameK).aliasMerges := by
        rw [h1]; simp [mergeInto]
      obtain ⟨t, ht⟩ :=
        processGroup_merges_mono [ek] rest (processNameKey [ek] st nameK)
      rw [hg, ht]
      exact List.mem_append_left _ hmem1
    · have hmem' : nameK ∈ rest := by
        rcases List.mem_cons.mp hmem with h1 | hr
        · exact absurd h1 heq
        · exact hr
      have hact' := processNameKey_preserves_other [ek] st nk nameK heq hact
      rw [hg]
      exact ih (processNameKey [ek] st nk) nameK hmem' hact'

/-- Claim C4: in the timestamped alias-merge phase, for a canonical-name
group: a lone ERP key absorbs a NAME key unconditionally (first conjunct) and
the group loop merges every active NAME key of the group into it (fourth
conjunct); with several ERP keys a NAME key is merged into a specific ERP key
only when their interval sets are overlap-or-near compatible at the 7-minute
tolerance (second conjunct), and when no ERP key qualifies the NAME key is
marked ambiguous and nothing else changes, in particular it is not merged
(third conjunct). -/
theorem claim_C4_identity_resolution :
    (∀ (st : ResolveState) (ek nameK : String),
      (alFind st.namesByKey nameK).isSome →
      processNameKey [ek] st nameK = mergeInto st nameK ek) ∧
    (∀ (st : ResolveState) (erpKeys : List String) (nameK ek : String),
      (alFind st.namesByKey nameK).isSome → 1 < erpKeys.length →
      (processNameKey erpKeys st nameK).aliasMerges =
        st.aliasMerges ++ [(nameK, ek)] →
      ek ∈ erpKeys ∧
        intervalsOverlapOrClose (alGetList st.ivByKey nameK)
          (alGetList st.ivByKey ek) 7 = true) ∧
    (∀ (st : ResolveState) (erpKeys : List String) (nameK : String),
      (alFind st.namesByKey nameK).isSome → 1 < erpKeys.length →
      (∀ ek ∈ erpKeys,
        intervalsOverlapOrClose (alGetList st.ivByKey nameK)
          (alGetList st.ivByKey ek) 7 = false) →
      processNameKey erpKeys st nameK =
        { st with ambiguousAliases := st.ambiguousAliases ++ [nameK] }) ∧
    (∀ (nkeys : List String) (st : ResolveState) (ek nameK : String),
      nameK ∈ nkeys → (alFind st.namesByKey nameK).isSome →
      (nameK, ek) ∈ (processGroup st [ek] nkeys).aliasMerges) :=
  ⟨processNameKey_singleton,
   processNameKey_merged_compat,
   processNameKey_none_compat,
   fun nkeys st ek nameK => processGroup_singleton_merges ek nkeys st nameK⟩

/-- Concrete resolver state for the identity-resolution witness: rows
`10001 - Jane Doe` (interval 0-30) and `Jane Doe` (interval 32-60) as they
stand after grouping, before alias merging. -/
def sampleResolveState : ResolveState :=
  { namesByKey := [("ERP:10001", "Jane Doe"), ("NAME:jane doe", "Jane Doe")],
    canonByKey := [("ERP:10001", "jane doe"), ("NAME:jane doe", "jane doe")],
    ivByKey := [("ERP:10001", [(0, 30)]), ("NAME:jane doe", [(32, 60)])],
    goodByKey := [("ERP:10001", [(0, 30)])],
    badByKey := [("NAME:jane doe", [(32, 60)])],
    ambiguousAliases := [],
    aliasMerges := [] }

/-- Witness for claim C4 at a concrete state: the lone ERP key absorbs the
NAME key, and the group loop records the merge. -/
theorem claim_C4_witness :
    (alFind sampleResolveState.namesByKey "NAME:jane doe").isSome = true ∧
    processNameKey ["ERP:10001"] sampleResolveState "NAME:jane doe" =
      mergeInto sampleResolveState "NAME:jane doe" "ERP:10001" ∧
    ("NAME:jane doe", "ERP:10001") ∈
      (processGroup sampleResolveState ["ERP:10001"]
        ["NAME:jane doe"]).aliasMerges :=
  ⟨by decide,
   claim_C4_identity_resolution.1 sampleResolveState "ERP:10001" "NAME:jane doe"
     (by decide),
   claim_C4_identity_resolution.2.2.2 ["NAME:jane doe"] sampleResolveState
     "ERP:10001" "NAME:jane doe" (by decide) (by decide)⟩

/-- Modelled from the spec: `extract_keys_from_bytes`, the extract-keys
operation that `handler.py` (`/api/keys`) and `cli.py` (`keys` subcommand)
call, is absent from the sources under review; per spec §6 it is "a read-only
projection of the Identity Resolver's output" returning "the list of Identity
Keys with display names" and "carries no decision logic". -/
def extractKeys (rows : List Row) : List (String × String) :=
  (identityResolve rows).namesByKey

/-- Claim C7: the extract-keys operation is a total function of the parsed
rows (it cannot fail where the main path accepted the log) and returns
exactly the Identity Resolver's keys with their display names. -/
theorem claim_C7_extract_keys :
    ∀ rows : List Row, extractKeys rows = (identityResolve rows).namesByKey :=
  fun _ => rfl

/-- Claim C10: a row whose raw name matches one of the four exclusion
patterns is dropped before identity resolution and contributes to no
identity key and no interval set (resolution of any row list equals
resolution of its non-excluded rows); the four patterns match the claimed
names case-insensitively with surrounding whitespace, and no other name,
e.g. "tabitha" or "Jane Doe", is dropped. -/
theorem claim_C10_excluded_rows :
    (∀ rows : List Row,
      identityResolve (rows.filter fun r => !isExcludedName r.rawName) =
        identityResolve rows) ∧
    isExcludedName " TA " = true ∧
    isExcludedName "Meeting Analytics from Read" = true ∧
    isExcludedName "Saboor\x27s Fathom Notetaker" = true ∧
    isExcludedName "Saboors Fathom Notetaker" = true ∧
    isExcludedName "Hassaan Khalid" = true ∧
    isExcludedName "tabitha" = false ∧
    isExcludedName "Jane Doe" = false := by
  refine ⟨fun rows => ?_, by decide, by decide, by decide, by decide,
    by decide, by decide, by decide⟩
  unfold identityResolve
  rw [List.filter_filter]
  simp

/-- One roster entry after `load_roster` (logic.py lines 285-306): 5-digit
ERP code, display name and canonical name (`RosterCanon` is
`_canon_name(RosterName)`); the optional email column is audit-only and
omitted.  `load_roster` de-duplicates entries by ERP
(`drop_duplicates(subset=["ERP"])`), which the theorems carry as a `Nodup`
hypothesis. -/
structure RosterEntry where
  erp : String
  rosterName : String
  rosterCanon : String
  deriving DecidableEq

/-- The synthetic record injected for one roster entry missing from the log
(logic.py lines 645-688): key, ERP, name, zero attended decision minutes,
the reason string, and the `Absent` status written into the attendance row;
the remaining columns are constants or threshold recomputations and are
omitted. -/
structure SyntheticAbsent where
  key : String
  erp : String
  name : String
  attendedDecision : ℚ
  reason : String
  status : String
  deriving DecidableEq

/-- The per-entry test and record of the roster loop (logic.py lines
640-688): an entry whose ERP is in no present ERP, whose `ERP:` key is
unregistered and whose canonical name collides with no canonical form of a
raw log name yields one synthetic record, any other entry none. -/
def rosterRecord (presentErps registeredKeys zoomCanons : List String)
    (row : RosterEntry) : Option SyntheticAbsent :=
  if row.erp ∉ presentErps ∧ ("ERP:" ++ row.erp) ∉ registeredKeys ∧
      row.rosterCanon ∉ zoomCanons then
    some { key := "ERP:" ++ row.erp, erp := row.erp, name := row.rosterName,
           attendedDecision := 0, reason := "Not in Zoom log (Roster)",
           status := "Absent" }
  else none

/-- Roster reconciliation (logic.py lines 635-688): the canonical forms of
every raw name seen in the log are collected first (lines 636-639), then the
roster rows are scanned in order. -/
def rosterReconcile (roster : List RosterEntry)
    (presentErps registeredKeys rawLogNames : List String) :
    List SyntheticAbsent :=
  roster.filterMap
    (rosterRecord presentErps registeredKeys (rawLogNames.map canonName))

theorem rosterRecord_some_eq (presentErps registeredKeys zoomCanons :
    List String) (r : RosterEntry) (b : SyntheticAbsent)
    (h : rosterRecord presentErps registeredKeys zoomCanons r = some b) :
    b = { key := "ERP:" ++ r.erp, erp := r.erp, name := r.rosterName,
          attendedDecision := 0, reason := "Not in Zoom log (Roster)",
          status := "Absent" } := by
  unfold rosterRecord at h
  split at h
  · exact (Option.some.injEq _ _ ▸ h).symm
  · exact absurd h (by simp)

theorem rosterReconcile_filter_not_mem (presentErps registeredKeys
    rawLogNames : List String) (e : String) :
    ∀ roster : List RosterEntry, e ∉ roster.map RosterEntry.erp →
      (rosterReconcile roster presentErps registeredKeys rawLogNames).filter
        (fun row => row.erp == e) = [] := by
  intro roster
  induction roster with
  | nil => intro _; rfl
  | cons r rest ih =>
    intro hne
    have hne_r : r.erp ≠ e := fun hc => hne (by simp [hc])
    have hne' : e ∉ rest.map RosterEntry.erp := fun hc => hne (by simp [hc])
    unfold rosterReconcile
    rw [List.filterMap_cons]
    cases hr : rosterRecord presentErps registeredKeys
        (rawLogNames.map canonName) r with
    | none => exact ih hne'
    | some b =>
      have hb : b.erp = r.erp := by
        rw [rosterRecord_some_eq presentErps registeredKeys _ r b hr]
      rw [List.filter_cons, if_neg]
      · exact ih hne'
      · simp [hb, hne_r]

theorem rosterReconcile_qualifying (presentErps registeredKeys rawLogNames :
    List String) :
    ∀ (roster : List RosterEntry) (r : RosterEntry),
      (roster.map RosterEntry.erp).Nodup → r ∈ roster →
      r.erp ∉ presentErps → ("ERP:" ++ r.erp) ∉ registeredKeys →
      r.rosterCanon ∉ rawLogNames.map canonName →
      (rosterReconcile roster presentErps registeredKeys rawLogNames).filter
          (fun row => row.erp == r.erp) =
        [{ key := "ERP:" ++ r.erp, erp := r.erp, name := r.rosterName,
           attendedDecision := 0, reason := "Not in Zoom log (Roster)",
           status := "Absent" }] := by
  intro roster
  induction roster with
  | nil => intro r _ hmem; simp at hmem
  | cons r0 rest ih =>
    intro r hnodup hmem h1 h2 h3
    rw [List.map_cons, List.nodup_cons] at hnodup
    rcases List.mem_cons.mp hmem with heq | hmem'
    · subst heq
      have hcond : r.erp ∉ presentErps ∧ ("ERP:" ++ r.erp) ∉ registeredKeys ∧
          r.rosterCanon ∉ rawLogNames.map canonName := ⟨h1, h2, h3⟩
      unfold rosterReconcile
      rw [List.filterMap_cons]
      rw [show rosterRecord presentErps registeredKeys
          (rawLogNames.map canonName) r = some _ from by
        unfold rosterRecord; rw [if_pos hcond]]
      rw [List.filter_cons, if_pos (by simp)]
      have hrest := rosterReconcile_filter_not_mem presentErps registeredKeys
        rawLogNames r.erp rest hnodup.1
      unfold rosterReconcile at hrest
      rw [hrest]
    · have hne_erp : r0.erp ≠ r.erp := by
        intro hc
        exact hnodup.1 (hc ▸ List.mem_map_of_mem RosterEntry.erp hmem')
      unfold rosterReconcile
      rw [List.filterMap_cons]
      cases hr : rosterRecord presentErps registeredKeys
          (rawLogNames.map canonName) r0 with
      | none => exact ih r hnodup.2 hmem' h1 h2 h3
      | some b =>
        have hb : b.erp = r0.erp := by
          rw [rosterRecord_some_eq presentErps registeredKeys _ r0 b hr]
        rw [List.filter_cons, if_neg (by simp [hb, hne_erp])]
        exact ih r hnodup.2 hmem' h1 h2 h3

theorem rosterReconcile_count_le_one (presentErps registeredKeys rawLogNames :
    List String) (e : String) :
    ∀ roster : List RosterEntry, (roster.map RosterEntry.erp).Nodup →
      ((rosterReconcile roster presentErps registeredKeys rawLogNames).filter
        (fun row => row.erp == e)).length ≤ 1 := by
  intro roster
  induction roster with
  | nil => intro _; simp [rosterReconcile]
  | cons r0 rest ih =>
    intro hnodup
    rw [List.map_cons, List.nodup_cons] at hnodup
    unfold rosterReconcile
    rw [List.filterMap_cons]
    cases hr : rosterRecord presentErps registeredKeys
        (rawLogNames.map canonName) r0 with
    | none => exact ih hnodup.2
    | some b =>
      have hb : b.erp = r0.erp := by
        rw [rosterRecord_some_eq presentErps registeredKeys _ r0 b hr]
      by_cases he : r0.erp = e
      · rw [List.filter_cons, if_pos (by simp [hb, he])]
        have hrest := rosterReconcile_filter_not_mem presentErps registeredKeys
          rawLogNames e rest (he ▸ hnodup.1)
        unfold rosterReconcile at hrest
        rw [List.length_cons, hrest]
        simp
      · rw [List.filter_cons, if_neg (by simp [hb, he])]
        exact ih hnodup.2

theorem canonName_eq_of_lower_eq (s t : String)
    (h : lowerString s = lowerString t) : canonName s = canonName t := by
  have hd : s.data.map lowerChar = t.data.map lowerChar :=
    congrArg String.data h
  unfold canonName
  rw [hd]

/-- Claim C5: with a roster whose ERPs are distinct (`load_roster`
de-duplicates by ERP), a roster entry whose ERP is in no present ERP, whose
`ERP:` key is unregistered and whose canonical name collides with no
canonical form of a raw log name yields exactly one synthetic `Absent`
record with zero attended minutes and the "not in log" reason (first
conjunct); no ERP ever yields more than one record (second conjunct); an
entry whose canonical name does appear among the log's canonical names
yields no record at all (third conjunct), and canonical names cannot be told
apart by casing, so a log name differing only in case still blocks the
injection (fourth conjunct). -/
theorem claim_C5_roster_reconciliation :
    (∀ (roster : List RosterEntry) (presentErps registeredKeys rawLogNames :
        List String) (r : RosterEntry),
      (roster.map RosterEntry.erp).Nodup → r ∈ roster →
      r.erp ∉ presentErps → ("ERP:" ++ r.erp) ∉ registeredKeys →
      r.rosterCanon ∉ rawLogNames.map canonName →
      (rosterReconcile roster presentErps registeredKeys rawLogNames).filter
          (fun row => row.erp == r.erp) =
        [{ key := "ERP:" ++ r.erp, erp := r.erp, name := r.rosterName,
           attendedDecision := 0, reason := "Not in Zoom log (Roster)",
           status := "Absent" }]) ∧
    (∀ (roster : List RosterEntry) (presentErps registeredKeys rawLogNames :
        List String) (e : String),
      (roster.map RosterEntry.erp).Nodup →
      ((rosterReconcile roster presentErps registeredKeys rawLogNames).filter
        (fun row => row.erp == e)).length ≤ 1) ∧
    (∀ (presentErps registeredKeys rawLogNames : List String)
        (r : RosterEntry),
      r.rosterCanon ∈ rawLogNames.map canonName →
      rosterRecord presentErps registeredKeys (rawLogNames.map canonName) r =
        none) ∧
    (∀ s t : String, lowerString s = lowerString t →
      canonName s = canonName t) :=
  ⟨fun roster pE rK rL r h1 h2 h3 h4 h5 =>
     rosterReconcile_qualifying pE rK rL roster r h1 h2 h3 h4 h5,
   fun roster pE rK rL e h =>
     rosterReconcile_count_le_one pE rK rL e roster h,
   fun pE rK rL r h => by
     unfold rosterRecord
     rw [if_neg]
     intro hc
     exact hc.2.2 h,
   canonName_eq_of_lower_eq⟩

/-- Witness for claim C5 at a concrete roster: entry `10001 / Jane Doe`
with the log containing only `Bob` yields exactly one synthetic record;
with the log containing `JANE   DOE` (a casing variant with collapsible
spacing is not needed — the canonical forms collide) the entry yields no
record. -/
theorem claim_C5_witness :
    (rosterReconcile [⟨"10001", "Jane Doe", "jane doe"⟩] [] [] ["Bob"]).filter
        (fun row => row.erp == "10001") =
      [{ key := "ERP:" ++ "10001", erp := "10001", name := "Jane Doe",
         attendedDecision := 0, reason := "Not in Zoom log (Roster)",
         status := "Absent" }] ∧
    rosterRecord [] [] (["JANE DOE"].map canonName)
        ⟨"10001", "Jane Doe", "jane doe"⟩ = none ∧
    canonName "JANE DOE" = canonName "jane doe" :=
  ⟨claim_C5_roster_reconciliation.1 [⟨"10001", "Jane Doe", "jane doe"⟩] [] []
     ["Bob"] ⟨"10001", "Jane Doe", "jane doe"⟩ (by decide) (by decide)
     (by decide) (by decide) (by decide),
   claim_C5_roster_reconciliation.2.2.1 [] [] ["JANE DOE"]
     ⟨"10001", "Jane Doe", "jane doe"⟩ (by decide),
   claim_C5_roster_reconciliation.2.2.2 "JANE DOE" "jane doe" (by decide)⟩
